import Mathlib

/-!
Verification of the `ufile` Go library (file/path utility functions).

Strings are modelled as `List Char`; the relevant byte-level operations of
the source act on ASCII separators and line terminators, for which the
character-level view coincides with the byte-level one.  Platform-dependent
inputs of the source (`runtime.GOOS`, `os.PathSeparator`, the results of
`os.UserConfigDir`, `os.UserHomeDir`, `os.Stat`) are passed as explicit
parameters.  Fallible I/O is modelled with `Except`/`Option` over the error
type `Err`.
-/

/-- Errors of the modelled I/O operations. -/
inductive Err where
  | createFailed
  | writeFailed
  | openFailed
  | readFailed
deriving DecidableEq

/-! ## Barename (ufile.go lines 36-48) -/

/-- Models `strings.LastIndexByte`: the index of the last occurrence of `c`
in `s`, or `none`. -/
def lastIndexByte : List Char → Char → Option Nat
  | [], _ => none
  | a :: rest, c =>
    match lastIndexByte rest c with
    | some i => some (i + 1)
    | none => if a = c then some 0 else none

/-- Models `strings.LastIndexAny`: the index of the last occurrence in `s`
of any character of `cs`, or `none`. -/
def lastIndexAny : List Char → List Char → Option Nat
  | [], _ => none
  | a :: rest, cs =>
    match lastIndexAny rest cs with
    | some i => some (i + 1)
    | none => if a ∈ cs then some 0 else none

/-- The directory-stripping step of `Barename` (ufile.go lines 37-39):
drop everything up to and including the last `/` or `\`. -/
def stripDir (path : List Char) : List Char :=
  match lastIndexAny path ['/', '\\'] with
  | some i => path.drop (i + 1)
  | none => path

/-- The suffix-stripping loop of `Barename` (ufile.go lines 40-46), with an
explicit fuel.  Each iteration truncates the string strictly (the truncation
index is below the length), so `s.length` fuel always suffices. -/
def stripSuffixesFuel : Nat → List Char → List Char
  | 0, s => s
  | fuel + 1, s =>
    match lastIndexByte s '.' with
    | none => s
    | some i => stripSuffixesFuel fuel (s.take i)

/-- The suffix-stripping loop of `Barename`: repeatedly truncate at the last
remaining `.` until no dot is left. -/
def stripSuffixes (s : List Char) : List Char :=
  stripSuffixesFuel s.length s

/-- Models `Barename` (ufile.go lines 36-48): the filename without any path
and without any suffix. -/
def Barename (path : List Char) : List Char :=
  stripSuffixes (stripDir path)

/-! ## LongestCommonPath (ufile.go lines 169-198) -/

/-- Character-wise longest common prefix of two strings. -/
def lcp2 : List Char → List Char → List Char
  | a :: as, b :: bs => if a = b then a :: lcp2 as bs else []
  | _, _ => []

/-- Modelled from the spec: the external collaborator
`utext.LongestCommonPrefix` (its source is outside this repository), which
the spec describes as the raw character-wise longest common prefix across
all inputs. -/
def LongestCommonPfx : List (List Char) → List Char
  | [] => []
  | p :: ps => ps.foldl lcp2 p

/-- Models `strings.ToLower` character-wise. -/
def lowerAll (s : List Char) : List Char :=
  s.map Char.toLower

/-- Models `LongestCommonPath` (ufile.go lines 169-198).  `ci` is the
platform's case-insensitivity flag (`runtime.GOOS` is windows or darwin) and
`sep` is `os.PathSeparator`. -/
def LongestCommonPath (ci : Bool) (sep : Char) (paths : List (List Char)) : List Char :=
  match paths with
  | [] => []
  | [p] => if ci then lowerAll p else p
  | _ :: _ :: _ =>
    let ps := if ci then paths.map lowerAll else paths
    let pfx := LongestCommonPfx ps
    if 1 < pfx.length then
      match lastIndexByte pfx sep with
      | none => []
      | some i => pfx.take (if i = 0 then 1 else i)
    else pfx

/-! ## ReadTextFile (ufile.go lines 209-217) -/

/-- Models `bytes.ReplaceAll(raw, []byte("\r"), []byte(""))`: remove every
carriage-return byte. -/
def removeCR (c : List Char) : List Char :=
  c.filter (fun x => x ≠ '\r')

/-- Models `bytes.TrimRight(raw, "\n")`: remove every trailing newline. -/
def trimTrailingLF (c : List Char) : List Char :=
  (c.reverse.dropWhile (fun x => x = '\n')).reverse

/-- Models `strings.Split(s, "\n")`: the segments of `s` between newlines;
always at least one (possibly empty) segment. -/
def splitOnLF : List Char → List (List Char)
  | [] => [[]]
  | a :: rest =>
    if a = '\n' then [] :: splitOnLF rest
    else
      match splitOnLF rest with
      | seg :: segs => (a :: seg) :: segs
      | [] => [[a]]

/-- The pure core of `ReadTextFile` (ufile.go lines 214-216): remove CRs,
trim all trailing newlines, split on newline. -/
def readTextFileLines (raw : List Char) : List (List Char) :=
  splitOnLF (trimTrailingLF (removeCR raw))

/-- Models `ReadTextFile` (ufile.go lines 209-217); `input` is the result of
`os.ReadFile`. -/
def ReadTextFile (input : Except Err (List Char)) : Except Err (List (List Char)) :=
  match input with
  | .error e => .error e
  | .ok raw => .ok (readTextFileLines raw)

/-! ## ReadUtf8Lines (ufile.go lines 221-247) -/

/-- Models `strings.TrimRight(line, "\r\n")`: remove trailing carriage
returns and newlines. -/
def trimRightCRLF (s : List Char) : List Char :=
  (s.reverse.dropWhile (fun x => x = '\r' ∨ x = '\n')).reverse

/-- One `reader.ReadString('\n')` step on buffered content: the chunk up to
and including the first newline, and the remainder; `none` when the content
holds no newline. -/
def splitFirstLF : List Char → Option (List Char × List Char)
  | [] => none
  | a :: rest =>
    if a = '\n' then some ([a], rest)
    else
      match splitFirstLF rest with
      | some (l, r) => some (a :: l, r)
      | none => none

/-- The read loop of `ReadUtf8Lines` (ufile.go lines 230-245) on a stream
that delivers `content` and then either end-of-file (`tail = none`) or a
read error (`tail = some e`).  Each chunk consumes at least one character,
so `content.length + 1` fuel always suffices. -/
def readUtf8Loop : Nat → List Char → Option Err → List (List Char × Option Err)
  | 0, _, _ => []
  | fuel + 1, content, tail =>
    match splitFirstLF content with
    | some (line, rest) => (trimRightCRLF line, none) :: readUtf8Loop fuel rest tail
    | none =>
      match tail with
      | some e => [([], some e)]
      | none => if content = [] then [] else [(trimRightCRLF content, none)]

/-- Models `ReadUtf8Lines` (ufile.go lines 221-247) run to completion: the
finite sequence of (line, error) pairs yielded.  `openResult` is the result
of `os.Open`: an open error, or the readable content together with what
follows it (end-of-file or a read error). -/
def ReadUtf8Lines (openResult : Except Err (List Char × Option Err)) :
    List (List Char × Option Err) :=
  match openResult with
  | .error e => [([], some e)]
  | .ok (content, tail) => readUtf8Loop (content.length + 1) content tail

/-! ## WriteTextFile (ufile.go lines 251-272) -/

/-- The underlying file: an append-only device that accepts at most
`capacity` characters and fails any write that would exceed it. -/
structure Sink where
  written : List Char
  capacity : Nat
deriving DecidableEq

/-- One write to the underlying file. -/
def Sink.write (s : Sink) (data : List Char) : Sink × Option Err :=
  if s.written.length + data.length ≤ s.capacity then
    ({ written := s.written ++ data, capacity := s.capacity }, none)
  else (s, some Err.writeFailed)

/-- Models `bufio.Writer`: a buffer in front of a `Sink`. -/
structure BufWriter where
  buf : List Char
  sink : Sink
deriving DecidableEq

/-- Models `bufio.Writer.WriteString`: buffer the data when it fits,
otherwise flush the buffer to the underlying file first, writing oversized
data directly. -/
def BufWriter.writeString (bufCap : Nat) (w : BufWriter) (s : List Char) :
    BufWriter × Option Err :=
  if w.buf.length + s.length ≤ bufCap then ({ w with buf := w.buf ++ s }, none)
  else
    match w.sink.write w.buf with
    | (sink1, some e) => ({ w with sink := sink1 }, some e)
    | (sink1, none) =>
      if s.length ≤ bufCap then ({ buf := s, sink := sink1 }, none)
      else
        match sink1.write s with
        | (sink2, e) => ({ buf := [], sink := sink2 }, e)

/-- Models `bufio.Writer.Flush`: push the buffered data to the underlying
file. -/
def BufWriter.flush (w : BufWriter) : BufWriter × Option Err :=
  match w.sink.write w.buf with
  | (sink1, some e) => ({ buf := w.buf, sink := sink1 }, some e)
  | (sink1, none) => ({ buf := [], sink := sink1 }, none)

/-- The write loop of `WriteTextFile` (ufile.go lines 262-269): each line,
then the end-of-line sequence; any write error aborts. -/
def writeLoop (bufCap : Nat) (eol : List Char) :
    List (List Char) → BufWriter → BufWriter × Option Err
  | [], w => (w, none)
  | line :: rest, w =>
    match BufWriter.writeString bufCap w line with
    | (w1, some e) => (w1, some e)
    | (w1, none) =>
      match BufWriter.writeString bufCap w1 eol with
      | (w2, some e) => (w2, some e)
      | (w2, none) => writeLoop bufCap eol rest w2

/-- Models `WriteTextFile` (ufile.go lines 251-272).  `createErr` is the
result of `os.Create`; `windows` is the `runtime.GOOS == "windows"` test
selecting the end-of-line sequence.  Returns the function's error result and
the final state of the underlying file.  Note the source discards the result
of `out.Flush()` (ufile.go line 270). -/
def WriteTextFile (createErr : Option Err) (bufCap sinkCap : Nat) (windows : Bool)
    (lines : List (List Char)) : Option Err × Sink :=
  match createErr with
  | some e => (some e, { written := [], capacity := sinkCap })
  | none =>
    let eol : List Char := if windows then ['\r', '\n'] else ['\n']
    let w0 : BufWriter := { buf := [], sink := { written := [], capacity := sinkCap } }
    match writeLoop bufCap eol lines w0 with
    | (w, some e) => (some e, w.sink)
    | (w, none) =>
      match BufWriter.flush w with
      | (w1, _e) => (none, w1.sink)

/-- The exact character sequence `WriteTextFile` emits on success: each line
followed by the end-of-line sequence. -/
def joinContent (eol : List Char) (lines : List (List Char)) : List Char :=
  (lines.map (fun l => l ++ eol)).flatten

/-! ## GetConfigFile (ufile.go lines 72-129) -/

/-- The environment `GetConfigFile` consults: the results of
`os.UserConfigDir` and `os.UserHomeDir`, and the set of paths at which a
regular file exists (the `os.Stat` oracle behind `FileExists`). -/
structure Env where
  userConfigDir : Option (List Char)
  userHomeDir : Option (List Char)
  existingFiles : List (List Char)

/-- Models `FileExists` (ufile.go lines 52-57) against the environment's
stat oracle. -/
def FileExists (env : Env) (path : List Char) : Bool :=
  env.existingFiles.contains path

/-- Models `filepath.Join(a, b)` on clean, nonempty components. -/
def fjoin (sep : Char) (a b : List Char) : List Char :=
  a ++ sep :: b

/-- Models `filepath.Join(a, b, c)` on clean, nonempty components. -/
def fjoin3 (sep : Char) (a b c : List Char) : List Char :=
  a ++ sep :: b ++ sep :: c

/-- The existence scan of `GetConfigFile` (ufile.go lines 114-118): the
first candidate at which a file exists. -/
def findFirstExisting (env : Env) : List (List Char) → Option (List Char)
  | [] => none
  | f :: rest => if FileExists env f then some f else findFirstExisting env rest

/-- Models `GetConfigFile` (ufile.go lines 72-129).  `sep` is the platform
path separator used by `filepath.Join`. -/
def GetConfigFile (sep : Char) (env : Env) (domain appname ext0 : List Char) :
    List Char × Bool :=
  let ext := if ext0.head? = some '.' then ext0 else '.' :: ext0
  let filename := appname ++ ext
  let cfg : List (List Char) × List Char :=
    match env.userConfigDir with
    | none => ([], [])
    | some configDir =>
      let fns := if domain ≠ [] then [fjoin3 sep configDir domain filename] else []
      let preferred := if domain ≠ [] then fjoin3 sep configDir domain filename else []
      let name := fjoin sep configDir filename
      (fns ++ [name], if preferred = [] then name else preferred)
  let hom : List (List Char) × List Char :=
    match env.userHomeDir with
    | none => ([], [])
    | some homeDir =>
      let fbs := if domain ≠ [] then [fjoin sep homeDir ('.' :: domain ++ '-' :: filename)] else []
      let fallback := if domain ≠ [] then fjoin sep homeDir ('.' :: domain ++ '-' :: filename) else []
      let name := fjoin sep homeDir ('.' :: filename)
      (fbs ++ [name], if fallback = [] then name else fallback)
  let filenames := cfg.1 ++ hom.1
  let filenames :=
    if filenames = [] then
      (if domain ≠ [] then [domain ++ '-' :: filename] else []) ++
      [filename] ++
      (if domain ≠ [] then ['.' :: domain ++ '-' :: filename] else []) ++
      ['.' :: filename]
    else filenames
  match findFirstExisting env filenames with
  | some f => (f, true)
  | none =>
    if cfg.2 ≠ [] then (cfg.2, false)
    else if hom.2 ≠ [] then (hom.2, false)
    else if domain ≠ [] then (domain ++ '-' :: filename, false)
    else (filename, false)

/-! ## Spec-side definitions (for refinement comparisons) -/

/-- Modelled from the spec: "strip a single trailing newline (if present)"
(spec section 4.4, Read-all-lines). -/
def dropSingleTrailingLF (c : List Char) : List Char :=
  if c.getLast? = some '\n' then c.dropLast else c

/-- Spec-side formulation of stripping all trailing newlines: repeatedly
drop the last character while it is a newline. -/
def stripAllTrailingLF : List Char → List Char
  | [] => []
  | a :: rest =>
    match stripAllTrailingLF rest with
    | [] => if a = '\n' then [] else [a]
    | r => a :: r

/-- Whether the content ends with two consecutive newlines. -/
def endsWith2LF (c : List Char) : Bool :=
  match c.reverse with
  | a :: b :: _ => a = '\n' && b = '\n'
  | _ => false

/-! ## Helper lemmas: Barename -/

theorem lastIndexByte_eq_none {s : List Char} {c : Char} :
    lastIndexByte s c = none ↔ c ∉ s := by
  induction s with
  | nil => simp [lastIndexByte]
  | cons a rest ih =>
    simp only [lastIndexByte, List.mem_cons]
    cases h : lastIndexByte rest c with
    | some i => simp only [h]; simp only [h, reduceCtorEq, false_iff] at ih; simp [ih]
    | none =>
      simp only [h, true_iff] at ih
      by_cases hac : a = c <;> simp [hac, ih]
      exact fun hca => hac hca.symm

theorem lastIndexByte_lt_length {s : List Char} {c : Char} {i : Nat}
    (h : lastIndexByte s c = some i) : i < s.length := by
  induction s generalizing i with
  | nil => simp [lastIndexByte] at h
  | cons a rest ih =>
    simp only [lastIndexByte] at h
    cases hr : lastIndexByte rest c with
    | some j =>
      rw [hr] at h
      cases h
      simpa using Nat.succ_lt_succ (ih hr)
    | none =>
      rw [hr] at h
      by_cases hac : a = c
      · simp [hac] at h
        simp only [List.length_cons]
        omega
      · simp [hac] at h

theorem stripSuffixesFuel_no_dot {fuel : Nat} {s : List Char}
    (h : s.length ≤ fuel) : '.' ∉ stripSuffixesFuel fuel s := by
  induction fuel generalizing s with
  | zero =>
    have : s = [] := List.eq_nil_of_length_eq_zero (Nat.le_zero.mp h)
    simp [this, stripSuffixesFuel]
  | succ n ih =>
    simp only [stripSuffixesFuel]
    cases hl : lastIndexByte s '.' with
    | none => exact lastIndexByte_eq_none.mp hl
    | some i =>
      apply ih
      have hi := lastIndexByte_lt_length hl
      simp only [List.length_take]
      omega

theorem stripSuffixesFuel_nil (fuel : Nat) : stripSuffixesFuel fuel [] = [] := by
  cases fuel <;> simp [stripSuffixesFuel, lastIndexByte]

/-- C9: Barename strips the directory part and then iteratively removes
dot-suffixes: the three documented examples hold, and the result of the
suffix loop never retains a dot. -/
theorem barename_strips_path_and_suffixes :
    Barename "/home/mark/data.dat".data = "data".data ∧
    Barename "weird.named.file.xz".data = "weird".data ∧
    Barename "README".data = "README".data ∧
    ∀ path : List Char, '.' ∉ Barename path := by
  refine ⟨by decide, by decide, by decide, fun path => ?_⟩
  exact stripSuffixesFuel_no_dot (Nat.le_refl _)

/-- C10: when the base name starts with a dot and holds no other dot, the
suffix loop truncates at the leading dot, so Barename returns the empty
string. -/
theorem barename_dotfile_empty (path : List Char) (t : List Char)
    (hbase : stripDir path = '.' :: t) (hnd : '.' ∉ t) :
    Barename path = [] := by
  unfold Barename stripSuffixes
  rw [hbase]
  have h1 : lastIndexByte ('.' :: t) '.' = some 0 := by
    simp only [lastIndexByte]
    rw [lastIndexByte_eq_none.mpr hnd]
    simp
  simp only [List.length_cons, stripSuffixesFuel, h1, List.take_zero]
  exact stripSuffixesFuel_nil _

theorem barename_dotfile_empty_witness :
    Barename ".bashrc".data = [] ∧ Barename "/home/mark/.gitignore".data = [] :=
  ⟨barename_dotfile_empty _ "bashrc".data (by decide) (by decide),
   barename_dotfile_empty _ "gitignore".data (by decide) (by decide)⟩

/-! ## LongestCommonPath claims -/

set_option maxRecDepth 4000 in
/-- C1: LongestCommonPath truncates the raw character-wise common prefix to
a whole-component boundary: the four documented examples. -/
theorem longestCommonPath_component_boundary :
    LongestCommonPath false '/'
      ["/home/mark/app/go/ufile".data, "/home/mark/app/py/x".data,
       "/home/mark/app/rs".data] = "/home/mark/app".data ∧
    LongestCommonPath false '/'
      ["/home/mark/app/go/ufile".data, "/home/mark/apps/bin".data,
       "/home/mark/app/py/x".data] = "/home/mark".data ∧
    LongestCommonPath false '/'
      ["/home/page".data, "/homeric/poem".data] = "/".data ∧
    LongestCommonPath false '/'
      ["home".data, "homeric".data] = "".data := by
  refine ⟨by decide, by decide, by decide, by decide⟩

/-- C2 counterexample: for ["/a", "/b"] the raw common prefix is "/"
(length 1), yet LongestCommonPath returns "/" rather than the empty
string the claim requires. -/
theorem longestCommonPath_short_pfx_counterexample :
    LongestCommonPath false '/' ["/a".data, "/b".data] = "/".data ∧
    LongestCommonPath false '/' ["/a".data, "/b".data] ≠ [] := by
  refine ⟨by decide, by decide⟩

/-- C2 amended: when the raw character-wise common prefix (computed after
lower-casing on a case-insensitive platform) has length at most 1, the
boundary-trimming branch is skipped and LongestCommonPath returns that raw
prefix unchanged. -/
theorem longestCommonPath_short_pfx (ci : Bool) (sep : Char)
    (p1 p2 : List Char) (rest : List (List Char))
    (h : (LongestCommonPfx
      (if ci then (p1 :: p2 :: rest).map lowerAll else p1 :: p2 :: rest)).length ≤ 1) :
    LongestCommonPath ci sep (p1 :: p2 :: rest) =
      LongestCommonPfx (if ci then (p1 :: p2 :: rest).map lowerAll else p1 :: p2 :: rest) := by
  simp only [LongestCommonPath]
  rw [if_neg]
  omega

theorem longestCommonPath_short_pfx_witness :
    LongestCommonPath false '/' ["/a".data, "/b".data] = "/".data := by
  have h := longestCommonPath_short_pfx false '/' "/a".data "/b".data [] (by decide)
  exact h.trans (by decide)

/-! ## WriteTextFile flush bug (C7) -/

/-- C7: the source discards the result of `out.Flush()` (ufile.go line 270).
With one line "a" and a device that rejects every write, all buffered writes
succeed, the final flush fails, yet WriteTextFile reports success (`none`)
and nothing was written to the file; the same flush, performed on the
writer state the loop produced, does return the write error that the
function swallows. -/
theorem writeTextFile_swallows_flush_error :
    WriteTextFile none 4096 0 false [['a']] =
      (none, { written := [], capacity := 0 }) ∧
    (BufWriter.flush { buf := ['a', '\n'], sink := { written := [], capacity := 0 } }).2 =
      some Err.writeFailed := by
  refine ⟨by decide, by decide⟩

/-! ## Helper lemmas: list surgery for the read functions -/

theorem dropWhile_eq_self_of_all {α : Type} {p : α → Bool} {l : List α}
    (h : ∀ x ∈ l, p x = false) : l.dropWhile p = l := by
  cases l with
  | nil => rfl
  | cons a t => simp [List.dropWhile_cons, h a (List.mem_cons_self a t)]

theorem dropWhile_append_of_exists {α : Type} {p : α → Bool} {l1 l2 : List α}
    (h : ∃ x ∈ l1, p x = false) : (l1 ++ l2).dropWhile p = l1.dropWhile p ++ l2 := by
  induction l1 with
  | nil => obtain ⟨x, hx, _⟩ := h; cases hx
  | cons a t ih =>
    cases hp : p a with
    | true =>
      obtain ⟨x, hx, hpx⟩ := h
      rcases List.mem_cons.mp hx with rfl | hxt
      · rw [hp] at hpx; cases hpx
      · simp [List.dropWhile_cons, hp, ih ⟨x, hxt, hpx⟩]
    | false => simp [List.dropWhile_cons, hp]

theorem removeCR_eq_self {c : List Char} (h : '\r' ∉ c) : removeCR c = c := by
  apply List.filter_eq_self.mpr
  intro x hx
  simp only [ne_eq, decide_not, Bool.not_eq_true', decide_eq_false_iff_not]
  exact fun he => h (he ▸ hx)

theorem trimTrailingLF_no_lf {c : List Char} (h : '\n' ∉ c) : trimTrailingLF c = c := by
  unfold trimTrailingLF
  rw [dropWhile_eq_self_of_all, List.reverse_reverse]
  intro x hx
  simp only [decide_eq_false_iff_not]
  exact fun he => h (he ▸ List.mem_reverse.mp hx)

theorem trimTrailingLF_append_lf {s : List Char} (h : '\n' ∉ s) :
    trimTrailingLF (s ++ ['\n']) = s := by
  unfold trimTrailingLF
  have h1 : (s ++ ['\n']).reverse = '\n' :: s.reverse := by simp
  rw [h1, List.dropWhile_cons]
  simp only [decide_True, if_true]
  rw [dropWhile_eq_self_of_all, List.reverse_reverse]
  intro x hx
  simp only [decide_eq_false_iff_not]
  exact fun he => h (he ▸ List.mem_reverse.mp hx)

theorem trimTrailingLF_append {a b : List Char} (h : ∃ x ∈ b, x ≠ '\n') :
    trimTrailingLF (a ++ b) = a ++ trimTrailingLF b := by
  unfold trimTrailingLF
  rw [List.reverse_append, dropWhile_append_of_exists, List.reverse_append,
    List.reverse_reverse]
  obtain ⟨x, hx, hne⟩ := h
  exact ⟨x, List.mem_reverse.mpr hx, by simp [hne]⟩

theorem splitOnLF_no_lf {s : List Char} (h : '\n' ∉ s) : splitOnLF s = [s] := by
  induction s with
  | nil => rfl
  | cons a t ih =>
    have ha : a ≠ '\n' := fun he => h (he ▸ List.mem_cons_self a t)
    have ht : '\n' ∉ t := fun hm => h (List.mem_cons_of_mem a hm)
    simp [splitOnLF, ha, ih ht]

theorem splitOnLF_append_lf {s t : List Char} (h : '\n' ∉ s) :
    splitOnLF (s ++ '\n' :: t) = s :: splitOnLF t := by
  induction s with
  | nil => simp [splitOnLF]
  | cons a r ih =>
    have ha : a ≠ '\n' := fun he => h (he ▸ List.mem_cons_self a r)
    have hr : '\n' ∉ r := fun hm => h (List.mem_cons_of_mem a hm)
    simp only [List.cons_append, splitOnLF, if_neg ha]
    rw [List.append_eq, ih hr]

theorem trimTrailingLF_eq_nil_iff {c : List Char} :
    trimTrailingLF c = [] ↔ c.reverse.dropWhile (fun x => x = '\n') = [] := by
  unfold trimTrailingLF
  constructor
  · intro h
    have := congrArg List.reverse h
    simpa using this
  · intro h; simp [h]

theorem stripAllTrailingLF_eq_trim (c : List Char) :
    stripAllTrailingLF c = trimTrailingLF c := by
  induction c with
  | nil => rfl
  | cons a rest ih =>
    simp only [stripAllTrailingLF]
    have hrev : (a :: rest).reverse = rest.reverse ++ [a] := by simp
    cases hr : stripAllTrailingLF rest with
    | nil =>
      have hnil : rest.reverse.dropWhile (fun x => x = '\n') = [] :=
        trimTrailingLF_eq_nil_iff.mp (ih.symm.trans hr)
      unfold trimTrailingLF
      rw [hrev, List.dropWhile_append, hnil]
      by_cases ha : a = '\n' <;> simp [ha]
    | cons b bs =>
      have htrim : trimTrailingLF rest = b :: bs := ih.symm.trans hr
      have hnil : rest.reverse.dropWhile (fun x => x = '\n') ≠ [] := by
        intro hc; rw [trimTrailingLF_eq_nil_iff.mpr hc] at htrim; cases htrim
      have hfalse : (rest.reverse.dropWhile (fun x => x = '\n')).isEmpty = false := by
        cases hcase : rest.reverse.dropWhile (fun x => x = '\n') with
        | nil => exact absurd hcase hnil
        | cons x xs => rfl
      have hcons : (rest.reverse.dropWhile (fun x => x = '\n')).reverse = b :: bs := htrim
      unfold trimTrailingLF
      rw [hrev, List.dropWhile_append, hfalse]
      simp [hcons]

/-- C4 counterexample: for content "a\n\n" the code produces ["a"], while
the claimed procedure (strip a single trailing newline, then split) yields
["a", ""]. -/
theorem readTextFile_single_trailing_counterexample :
    readTextFileLines "a\n\n".data ≠
      splitOnLF (dropSingleTrailingLF (removeCR "a\n\n".data)) := by
  decide

/-- C4 amended: ReadTextFile returns the lines obtained by removing every
carriage-return byte, stripping ALL trailing newlines, and splitting the
remainder on newline. -/
theorem readTextFile_strips_all_trailing (c : List Char) :
    readTextFileLines c = splitOnLF (stripAllTrailingLF (removeCR c)) := by
  rw [stripAllTrailingLF_eq_trim]; rfl

/-! ## Helper lemmas: the lazy line iterator -/

theorem splitFirstLF_eq_none {c : List Char} : splitFirstLF c = none ↔ '\n' ∉ c := by
  induction c with
  | nil => simp [splitFirstLF]
  | cons a t ih =>
    simp only [splitFirstLF, List.mem_cons]
    by_cases ha : a = '\n'
    · simp [ha]
    · have ha2 : ('\n' : Char) ≠ a := fun he => ha he.symm
      cases hs : splitFirstLF t with
      | some p =>
        simp only [hs, reduceCtorEq, false_iff, not_not] at ih
        simp [hs, ha, ha2, ih]
      | none =>
        simp only [hs, true_iff] at ih
        simp [hs, ha, ha2, ih]

theorem splitFirstLF_eq_some {c l r : List Char}
    (h : splitFirstLF c = some (l, r)) :
    c = l ++ r ∧ ∃ s, l = s ++ ['\n'] ∧ '\n' ∉ s := by
  induction c generalizing l r with
  | nil => simp [splitFirstLF] at h
  | cons a t ih =>
    simp only [splitFirstLF] at h
    by_cases ha : a = '\n'
    · rw [if_pos ha] at h
      cases h
      subst ha
      exact ⟨rfl, [], rfl, by simp⟩
    · rw [if_neg ha] at h
      cases hs : splitFirstLF t with
      | none => rw [hs] at h; cases h
      | some p =>
        obtain ⟨l2, r2⟩ := p
        rw [hs] at h
        cases h
        obtain ⟨hc, s, hl, hns⟩ := ih hs
        refine ⟨by simp [hc], a :: s, by simp [hl], ?_⟩
        simp only [List.mem_cons, not_or]
        exact ⟨fun he => ha he.symm, hns⟩

theorem readUtf8Loop_nil (fuel : Nat) : readUtf8Loop fuel [] none = [] := by
  cases fuel <;> simp [readUtf8Loop, splitFirstLF]

theorem readUtf8Loop_read_error : ∀ (fuel : Nat) (c : List Char) (e : Err),
    c.length < fuel →
    ∃ ls : List (List Char),
      readUtf8Loop fuel c (some e) = ls.map (fun l => (l, none)) ++ [([], some e)] := by
  intro fuel
  induction fuel with
  | zero => intro c e h; omega
  | succ n ih =>
    intro c e h
    cases hs : splitFirstLF c with
    | none => exact ⟨[], by simp [readUtf8Loop, hs]⟩
    | some p =>
      obtain ⟨l, r⟩ := p
      obtain ⟨hc, s, hl, _⟩ := splitFirstLF_eq_some hs
      have hlen : r.length < n := by
        have h1 : c.length = l.length + r.length := by simp [hc]
        have h2 : l.length = s.length + 1 := by simp [hl]
        omega
      obtain ⟨ls, hls⟩ := ih r e hlen
      exact ⟨trimRightCRLF l :: ls, by simp [readUtf8Loop, hs, hls]⟩

/-- C6: the error protocol of ReadUtf8Lines.  On an open failure the
iterator yields exactly one (empty, error) pair and terminates; on a read
error it yields the lines read so far error-free, then one (empty, error)
pair, and terminates — no pair ever follows an error pair. -/
theorem readUtf8Lines_error_protocol :
    (∀ e : Err, ReadUtf8Lines (Except.error e) = [([], some e)]) ∧
    (∀ (c : List Char) (e : Err), ∃ ls : List (List Char),
      ReadUtf8Lines (Except.ok (c, some e)) =
        ls.map (fun l => (l, none)) ++ [([], some e)]) := by
  refine ⟨fun e => rfl, fun c e => ?_⟩
  exact readUtf8Loop_read_error (c.length + 1) c e (Nat.lt_succ_self _)

theorem trimRightCRLF_eq_self {s : List Char} (hn : '\n' ∉ s) (hr : '\r' ∉ s) :
    trimRightCRLF s = s := by
  unfold trimRightCRLF
  rw [dropWhile_eq_self_of_all, List.reverse_reverse]
  intro x hx
  have hxs : x ∈ s := List.mem_reverse.mp hx
  simp only [decide_eq_false_iff_not, not_or]
  exact ⟨fun he => hr (he ▸ hxs), fun he => hn (he ▸ hxs)⟩

theorem trimRightCRLF_append_lf {s : List Char} (hn : '\n' ∉ s) (hr : '\r' ∉ s) :
    trimRightCRLF (s ++ ['\n']) = s := by
  unfold trimRightCRLF
  have h1 : (s ++ ['\n']).reverse = '\n' :: s.reverse := by simp
  rw [h1, List.dropWhile_cons]
  simp only [decide_True, or_true, if_true]
  rw [dropWhile_eq_self_of_all, List.reverse_reverse]
  intro x hx
  have hxs : x ∈ s := List.mem_reverse.mp hx
  simp only [decide_eq_false_iff_not, not_or]
  exact ⟨fun he => hr (he ▸ hxs), fun he => hn (he ▸ hxs)⟩

theorem endsWith2LF_append {a b : List Char} (h : 2 ≤ b.length) :
    endsWith2LF (a ++ b) = endsWith2LF b := by
  have h2 : 2 ≤ b.reverse.length := by simpa using h
  match hb : b.reverse with
  | [] => rw [hb] at h2; simp at h2
  | [x] => rw [hb] at h2; simp at h2
  | x :: y :: t =>
    unfold endsWith2LF
    rw [List.reverse_append, hb]
    simp

theorem endsWith2LF_two (a : List Char) : endsWith2LF (a ++ ['\n', '\n']) = true := by
  unfold endsWith2LF
  rw [List.reverse_append]
  simp

theorem endsWith2LF_singleton (x : Char) : endsWith2LF [x] = false := by
  simp [endsWith2LF]

theorem exists_non_lf {s r c : List Char}
    (hcsr : c = s ++ '\n' :: r) (hne : r ≠ []) (h2lf : endsWith2LF c = false) :
    ∃ y ∈ r, y ≠ '\n' := by
  by_contra hall
  push_neg at hall
  have hrev : c.reverse = r.reverse ++ '\n' :: s.reverse := by
    rw [hcsr]; simp
  cases hq : r.reverse with
  | nil => exact hne (by simpa using congrArg List.reverse hq)
  | cons x q =>
    have hx : x ∈ r := by rw [← List.mem_reverse, hq]; simp
    have hxlf : x = '\n' := hall x hx
    cases q with
    | nil =>
      have hc2 : c.reverse = '\n' :: '\n' :: s.reverse := by rw [hrev, hq, hxlf]; simp
      unfold endsWith2LF at h2lf
      rw [hc2] at h2lf
      simp at h2lf
    | cons y q2 =>
      have hy : y ∈ r := by rw [← List.mem_reverse, hq]; simp
      have hylf : y = '\n' := hall y hy
      have hc2 : c.reverse = '\n' :: '\n' :: (q2 ++ '\n' :: s.reverse) := by
        rw [hrev, hq, hxlf, hylf]; simp
      unfold endsWith2LF at h2lf
      rw [hc2] at h2lf
      simp at h2lf

theorem endsWith2LF_r_of_c {s r c : List Char}
    (hcsr : c = s ++ '\n' :: r) (hne : r ≠ []) (h2lf : endsWith2LF c = false) :
    endsWith2LF r = false := by
  by_cases hlr : 2 ≤ r.length
  · have h : c = (s ++ ['\n']) ++ r := by rw [hcsr]; simp
    rw [h, endsWith2LF_append hlr] at h2lf
    exact h2lf
  · cases r with
    | nil => exact absurd rfl hne
    | cons x t =>
      cases t with
      | nil => exact endsWith2LF_singleton x
      | cons y t2 =>
        exfalso
        apply hlr
        simp only [List.length_cons]
        omega

theorem readLoop_agrees : ∀ (fuel : Nat) (c : List Char), c.length < fuel → c ≠ [] →
    '\r' ∉ c → endsWith2LF c = false →
    (readUtf8Loop fuel c none).map Prod.fst = readTextFileLines c := by
  intro fuel
  induction fuel with
  | zero => intro c h _ _ _; omega
  | succ n ih =>
    intro c hlen hne hcr h2lf
    cases hs : splitFirstLF c with
    | none =>
      have hnl : '\n' ∉ c := splitFirstLF_eq_none.mp hs
      have hrtf : readTextFileLines c = [c] := by
        unfold readTextFileLines
        rw [removeCR_eq_self hcr, trimTrailingLF_no_lf hnl, splitOnLF_no_lf hnl]
      rw [hrtf]
      simp only [readUtf8Loop, hs]
      rw [if_neg hne]
      simp [trimRightCRLF_eq_self hnl hcr]
    | some p =>
      obtain ⟨l, r⟩ := p
      obtain ⟨hc, s, hl, hnls⟩ := splitFirstLF_eq_some hs
      have hcsr : c = s ++ '\n' :: r := by rw [hc, hl]; simp
      have hcrs : '\r' ∉ s := fun hm => hcr (by rw [hcsr]; exact List.mem_append_left _ hm)
      have hcrr : '\r' ∉ r := fun hm => hcr (by
        rw [hcsr]; exact List.mem_append_right _ (List.mem_cons_of_mem _ hm))
      have htriml : trimRightCRLF l = s := by
        rw [hl]; exact trimRightCRLF_append_lf hnls hcrs
      by_cases hr0 : r = []
      · have hrtf : readTextFileLines c = [s] := by
          unfold readTextFileLines
          rw [removeCR_eq_self hcr, hcsr, hr0]
          rw [show s ++ '\n' :: ([] : List Char) = s ++ ['\n'] from rfl]
          rw [trimTrailingLF_append_lf hnls, splitOnLF_no_lf hnls]
        rw [hrtf]
        simp only [readUtf8Loop, hs, hr0, readUtf8Loop_nil, List.map_cons, htriml]
        simp
      · have hlenr : r.length < n := by
          have h1 : c.length = s.length + 1 + r.length := by
            rw [hcsr]
            simp only [List.length_append, List.length_cons]
            omega
          omega
        have h2r : endsWith2LF r = false := endsWith2LF_r_of_c hcsr hr0 h2lf
        have hihr := ih r hlenr hr0 hcrr h2r
        obtain ⟨y, hyr, hylf⟩ := exists_non_lf hcsr hr0 h2lf
        have hrtf : readTextFileLines c = s :: readTextFileLines r := by
          unfold readTextFileLines
          rw [removeCR_eq_self hcr, removeCR_eq_self hcrr, hcsr]
          rw [show s ++ '\n' :: r = (s ++ ['\n']) ++ r by simp]
          rw [trimTrailingLF_append ⟨y, hyr, hylf⟩]
          rw [show (s ++ ['\n']) ++ trimTrailingLF r = s ++ '\n' :: trimTrailingLF r by simp]
          rw [splitOnLF_append_lf hnls]
        rw [hrtf]
        simp only [readUtf8Loop, hs, List.map_cons, htriml, hihr]

/-- C5 counterexample: on content "a\n\n" the lazy iterator yields the
lines ["a", ""], while ReadTextFile returns ["a"]. -/
theorem readUtf8_vs_readTextFile_counterexample :
    (ReadUtf8Lines (Except.ok ("a\n\n".data, none))).map Prod.fst ≠
      readTextFileLines "a\n\n".data := by
  decide

/-- C5 amended: the lazy iterator and the whole-file reader agree
line-for-line on every nonempty content that contains no carriage return
and does not end with two consecutive newlines (in particular on contents
with a single trailing newline and on contents without one). -/
theorem readUtf8_agrees_readTextFile (c : List Char) (h1 : c ≠ [])
    (h2 : '\r' ∉ c) (h3 : endsWith2LF c = false) :
    (ReadUtf8Lines (Except.ok (c, none))).map Prod.fst = readTextFileLines c :=
  readLoop_agrees (c.length + 1) c (Nat.lt_succ_self _) h1 h2 h3

theorem readUtf8_agrees_readTextFile_witness :
    (ReadUtf8Lines (Except.ok ("a\nb\n".data, none))).map Prod.fst =
      readTextFileLines "a\nb\n".data ∧
    (ReadUtf8Lines (Except.ok ("a\nb".data, none))).map Prod.fst =
      readTextFileLines "a\nb".data :=
  ⟨readUtf8_agrees_readTextFile "a\nb\n".data (by decide) (by decide) (by decide),
   readUtf8_agrees_readTextFile "a\nb".data (by decide) (by decide) (by decide)⟩

/-! ## Helper lemmas: the buffered writer -/

theorem sink_write_ok {s : Sink} {data : List Char}
    (h : s.written.length + data.length ≤ s.capacity) :
    Sink.write s data = ({ written := s.written ++ data, capacity := s.capacity }, none) := by
  simp [Sink.write, h]

theorem writeString_ok (bufCap : Nat) {w : BufWriter} {s : List Char}
    (h : w.sink.written.length + w.buf.length + s.length ≤ w.sink.capacity) :
    ∃ w1 : BufWriter,
      BufWriter.writeString bufCap w s = (w1, none) ∧
      w1.sink.written ++ w1.buf = w.sink.written ++ w.buf ++ s ∧
      w1.sink.capacity = w.sink.capacity := by
  unfold BufWriter.writeString
  by_cases h1 : w.buf.length + s.length ≤ bufCap
  · rw [if_pos h1]
    exact ⟨{ w with buf := w.buf ++ s }, rfl, by simp, rfl⟩
  · rw [if_neg h1]
    have hflush : w.sink.written.length + w.buf.length ≤ w.sink.capacity := by omega
    rw [sink_write_ok hflush]
    dsimp only
    by_cases h2 : s.length ≤ bufCap
    · rw [if_pos h2]
      refine ⟨_, rfl, ?_, rfl⟩
      simp
    · rw [if_neg h2]
      have hdirect : (w.sink.written ++ w.buf).length + s.length ≤ w.sink.capacity := by
        simp only [List.length_append]
        omega
      rw [sink_write_ok hdirect]
      dsimp only
      refine ⟨_, rfl, ?_, rfl⟩
      simp

theorem writeLoop_ok (bufCap : Nat) (eol : List Char) :
    ∀ (lines : List (List Char)) (w : BufWriter),
    w.sink.written.length + w.buf.length + (joinContent eol lines).length ≤ w.sink.capacity →
    ∃ w1 : BufWriter, writeLoop bufCap eol lines w = (w1, none) ∧
      w1.sink.written ++ w1.buf = w.sink.written ++ w.buf ++ joinContent eol lines ∧
      w1.sink.capacity = w.sink.capacity := by
  intro lines
  induction lines with
  | nil =>
    intro w h
    exact ⟨w, rfl, by simp [joinContent], rfl⟩
  | cons line rest ih =>
    intro w h
    have hjc : joinContent eol (line :: rest) = (line ++ eol) ++ joinContent eol rest := by
      simp [joinContent]
    rw [hjc] at h
    simp only [List.length_append] at h
    have hw1 : w.sink.written.length + w.buf.length + line.length ≤ w.sink.capacity := by
      omega
    obtain ⟨w1, he1, hc1, hcap1⟩ := writeString_ok bufCap hw1
    have hlen1 : w1.sink.written.length + w1.buf.length =
        w.sink.written.length + w.buf.length + line.length := by
      have := congrArg List.length hc1
      simp only [List.length_append] at this
      omega
    have hw2 : w1.sink.written.length + w1.buf.length + eol.length ≤ w1.sink.capacity := by
      rw [hlen1, hcap1]
      omega
    obtain ⟨w2, he2, hc2, hcap2⟩ := writeString_ok bufCap hw2
    have hlen2 : w2.sink.written.length + w2.buf.length =
        w1.sink.written.length + w1.buf.length + eol.length := by
      have := congrArg List.length hc2
      simp only [List.length_append] at this
      omega
    have hw3 : w2.sink.written.length + w2.buf.length +
        (joinContent eol rest).length ≤ w2.sink.capacity := by
      rw [hlen2, hlen1, hcap2, hcap1]
      omega
    obtain ⟨w3, he3, hc3, hcap3⟩ := ih w2 hw3
    refine ⟨w3, ?_, ?_, by rw [hcap3, hcap2, hcap1]⟩
    · simp only [writeLoop, he1, he2, he3]
    · rw [hc3, hc2, hc1, hjc]
      simp [List.append_assoc]

theorem flush_ok {w : BufWriter}
    (h : w.sink.written.length + w.buf.length ≤ w.sink.capacity) :
    BufWriter.flush w =
      ({ buf := [],
         sink := { written := w.sink.written ++ w.buf, capacity := w.sink.capacity } },
       none) := by
  unfold BufWriter.flush
  rw [sink_write_ok h]

theorem removeCR_joinContent {lines : List (List Char)} (windows : Bool)
    (h : ∀ l ∈ lines, '\r' ∉ l) :
    removeCR (joinContent (if windows then ['\r', '\n'] else ['\n']) lines) =
      joinContent ['\n'] lines := by
  induction lines with
  | nil => cases windows <;> rfl
  | cons l rest ih =>
    have h1 : '\r' ∉ l := h l (List.mem_cons_self l rest)
    have h2 : ∀ x ∈ rest, '\r' ∉ x := fun x hx => h x (List.mem_cons_of_mem l hx)
    have hjc : ∀ eol : List Char, joinContent eol (l :: rest) =
        (l ++ eol) ++ joinContent eol rest := by
      intro eol; simp [joinContent]
    rw [hjc, hjc]
    unfold removeCR
    rw [List.filter_append, List.filter_append]
    unfold removeCR at ih
    rw [ih h2]
    have hfl : List.filter (fun x => x ≠ '\r') l = l := removeCR_eq_self h1
    rw [hfl]
    congr 1
    cases windows <;> rfl

theorem roundtrip_core : ∀ (lines : List (List Char)), lines ≠ [] →
    (∀ l ∈ lines, '\n' ∉ l) →
    (∀ x, lines.getLast? = some x → x ≠ []) →
    splitOnLF (trimTrailingLF (joinContent ['\n'] lines)) = lines := by
  intro lines
  induction lines with
  | nil => intro h; exact absurd rfl h
  | cons l rest ih =>
    intro _ hall hlast
    have hnl : '\n' ∉ l := hall l (List.mem_cons_self l rest)
    cases rest with
    | nil =>
      have hjc : joinContent ['\n'] [l] = l ++ ['\n'] := by simp [joinContent]
      rw [hjc, trimTrailingLF_append_lf hnl, splitOnLF_no_lf hnl]
    | cons l2 t =>
      have hjc : joinContent ['\n'] (l :: l2 :: t) =
          (l ++ ['\n']) ++ joinContent ['\n'] (l2 :: t) := by simp [joinContent]
      -- the last line is nonempty, so the tail content holds a non-newline char
      obtain ⟨z, hz⟩ : ∃ z, (l2 :: t).getLast? = some z := by
        cases hgl : (l2 :: t).getLast? with
        | none => exact absurd (List.getLast?_eq_none_iff.mp hgl) (by simp)
        | some z => exact ⟨z, rfl⟩
      have hzmem : z ∈ l2 :: t := List.mem_of_getLast?_eq_some hz
      have hzne : z ≠ [] := hlast z (by rw [List.getLast?_cons_cons]; exact hz)
      have hznl : '\n' ∉ z := hall z (List.mem_cons_of_mem l hzmem)
      obtain ⟨zh, zt, hzc⟩ : ∃ zh zt, z = zh :: zt := by
        cases z with
        | nil => exact absurd rfl hzne
        | cons zh zt => exact ⟨zh, zt, rfl⟩
      have hzhmem : zh ∈ joinContent ['\n'] (l2 :: t) := by
        unfold joinContent
        apply List.mem_flatten.mpr
        refine ⟨z ++ ['\n'], List.mem_map_of_mem _ hzmem, ?_⟩
        rw [hzc]; simp
      have hzhne : zh ≠ '\n' := fun he => hznl (he ▸ (hzc ▸ List.mem_cons_self zh zt))
      rw [hjc, trimTrailingLF_append ⟨zh, hzhmem, hzhne⟩]
      rw [show (l ++ ['\n']) ++ trimTrailingLF (joinContent ['\n'] (l2 :: t)) =
        l ++ '\n' :: trimTrailingLF (joinContent ['\n'] (l2 :: t)) by simp]
      rw [splitOnLF_append_lf hnl]
      rw [ih (by simp) (fun x hx => hall x (List.mem_cons_of_mem l hx))
        (fun x hx => hlast x (by rw [List.getLast?_cons_cons]; exact hx))]

/-- C3 counterexample: the lines ["a", ""] contain no newline characters,
WriteTextFile succeeds, but reading the file back gives ["a"], not
["a", ""] — ReadTextFile's stripping of all trailing newlines loses the
empty last line. -/
theorem writeRead_roundtrip_counterexample :
    (WriteTextFile none 4096 100 false ["a".data, []]).1 = none ∧
    readTextFileLines (WriteTextFile none 4096 100 false ["a".data, []]).2.written ≠
      ["a".data, []] := by
  refine ⟨by decide, by decide⟩

/-- C3 amended: for every nonempty sequence of lines whose last line is
nonempty and whose lines contain no newline and no carriage-return
characters, writing with WriteTextFile (on either platform) and reading the
resulting content back with ReadTextFile reproduces the lines exactly,
whenever the device has room for the content. -/
theorem writeRead_roundtrip (windows : Bool) (bufCap sinkCap : Nat)
    (lines : List (List Char))
    (h1 : lines ≠ [])
    (h2 : ∀ l ∈ lines, '\n' ∉ l ∧ '\r' ∉ l)
    (h3 : ∀ x, lines.getLast? = some x → x ≠ [])
    (h4 : (joinContent (if windows then ['\r', '\n'] else ['\n']) lines).length ≤ sinkCap) :
    (WriteTextFile none bufCap sinkCap windows lines).1 = none ∧
    readTextFileLines (WriteTextFile none bufCap sinkCap windows lines).2.written = lines := by
  obtain ⟨w1, he, hc, hcap⟩ := writeLoop_ok bufCap
    (if windows then ['\r', '\n'] else ['\n']) lines
    { buf := [], sink := { written := [], capacity := sinkCap } } (by simpa using h4)
  have hcap2 : w1.sink.capacity = sinkCap := hcap
  have hc2 : w1.sink.written ++ w1.buf =
      joinContent (if windows then ['\r', '\n'] else ['\n']) lines := by simpa using hc
  have hlen1 : w1.sink.written.length + w1.buf.length ≤ w1.sink.capacity := by
    have hl := congrArg List.length hc2
    simp only [List.length_append] at hl
    rw [hcap2]
    omega
  have hread : readTextFileLines (w1.sink.written ++ w1.buf) = lines := by
    rw [hc2]
    unfold readTextFileLines
    rw [removeCR_joinContent windows (fun l hl => (h2 l hl).2)]
    exact roundtrip_core lines h1 (fun l hl => (h2 l hl).1) h3
  unfold WriteTextFile
  dsimp only
  rw [he]
  dsimp only
  rw [flush_ok hlen1]
  exact ⟨rfl, hread⟩

theorem writeRead_roundtrip_witness :
    (WriteTextFile none 4096 100 false ["ab".data, "c".data]).1 = none ∧
    readTextFileLines (WriteTextFile none 4096 100 false ["ab".data, "c".data]).2.written =
      ["ab".data, "c".data] :=
  writeRead_roundtrip false 4096 100 ["ab".data, "c".data] (by decide)
    (by decide) (by decide) (by decide)

theorem findFirstExisting_eq_find (env : Env) (l : List (List Char)) :
    findFirstExisting env l = l.find? (fun f => FileExists env f) := by
  induction l with
  | nil => rfl
  | cons f rest ih =>
    simp only [findFirstExisting, List.find?]
    cases h : FileExists env f <;> simp [h, ih]

theorem fjoin_ne_nil (sep : Char) (a b : List Char) : fjoin sep a b ≠ [] := by
  simp [fjoin]

theorem fjoin3_ne_nil (sep : Char) (a b c : List Char) : fjoin3 sep a b c ≠ [] := by
  simp [fjoin3]

/-- C8: when both the user-config directory and the home directory resolve,
GetConfigFile returns the first existing candidate — in the order
config-dir/domain/name, config-dir/name, home/.domain-name, home/.name,
with the domain-qualified entries present exactly when the domain is
nonempty — paired with true, and when no candidate exists it returns the
most preferred candidate (config-dir based, domain-qualified when the
domain is nonempty) paired with false. -/
theorem getConfigFile_candidate_order (sep : Char) (env : Env)
    (domain appname ext0 : List Char) (cd hd : List Char)
    (hcd : env.userConfigDir = some cd) (hhd : env.userHomeDir = some hd) :
    GetConfigFile sep env domain appname ext0 =
      (let ext := if ext0.head? = some '.' then ext0 else '.' :: ext0
       let filename := appname ++ ext
       let cands :=
         (if domain ≠ [] then [fjoin3 sep cd domain filename] else []) ++
         [fjoin sep cd filename] ++
         (if domain ≠ [] then [fjoin sep hd ('.' :: domain ++ '-' :: filename)] else []) ++
         [fjoin sep hd ('.' :: filename)]
       match cands.find? (fun f => FileExists env f) with
       | some f => (f, true)
       | none =>
         ((if domain ≠ [] then fjoin3 sep cd domain filename
           else fjoin sep cd filename), false)) := by
  unfold GetConfigFile
  rw [hcd, hhd]
  by_cases hdom : domain = []
  · subst hdom
    simp only [ne_eq, not_true_eq_false, if_false, ite_false, List.nil_append,
      List.cons_append, List.append_nil, reduceCtorEq, findFirstExisting_eq_find]
    cases hfind : ([fjoin sep cd (appname ++ if ext0.head? = some '.' then ext0 else '.' :: ext0),
        fjoin sep hd ('.' :: (appname ++ if ext0.head? = some '.' then ext0 else '.' :: ext0))].find?
          (fun f => FileExists env f)) with
    | some f => simp [hfind]
    | none => simp [hfind, fjoin_ne_nil]
  · simp only [ne_eq, hdom, not_false_eq_true, if_true, ite_true, List.nil_append,
      List.cons_append, List.append_nil, reduceCtorEq, findFirstExisting_eq_find,
      fjoin3_ne_nil, fjoin_ne_nil]
    simp only [if_false, fjoin3_ne_nil, fjoin_ne_nil, not_false_eq_true, ite_true, if_true]

theorem getConfigFile_candidate_order_witness :
    GetConfigFile '/'
      { userConfigDir := some "/cfg".data, userHomeDir := some "/home/u".data,
        existingFiles := ["/home/u/.app.ini".data] }
      "d".data "app".data "ini".data = ("/home/u/.app.ini".data, true) :=
  (getConfigFile_candidate_order '/'
    { userConfigDir := some "/cfg".data, userHomeDir := some "/home/u".data,
      existingFiles := ["/home/u/.app.ini".data] }
    "d".data "app".data "ini".data "/cfg".data "/home/u".data rfl rfl).trans (by decide)
